import Mathlib

set_option maxRecDepth 40000

namespace Lookr

/-! ### String containment

The in-memory index (src/lookr-daemon/src/index.rs) matches a query by
`k.contains(q)`, Rust substring containment.  We embed it as a boolean
substring test over the character lists of the strings. -/

/-- Boolean test that `pat` is a leading block of `s` (on character lists). -/
def listStartsWith : List Char → List Char → Bool
  | [], _ => true
  | _ :: _, [] => false
  | a :: as, b :: bs => a == b && listStartsWith as bs

/-- Boolean substring test on character lists: some suffix of `s` starts with `pat`. -/
def listHasSub (pat : List Char) : List Char → Bool
  | [] => listStartsWith pat []
  | b :: bs => listStartsWith pat (b :: bs) || listHasSub pat bs

/-- Embedding of Rust `s.contains(pat)`: `s` contains `pat` as a substring. -/
def strContains (s pat : String) : Bool := listHasSub pat.data s.data

theorem listStartsWith_self (l : List Char) : listStartsWith l l = true := by
  induction l with
  | nil => rfl
  | cons a as ih => simp [listStartsWith, ih]

theorem strContains_self (s : String) : strContains s s = true := by
  unfold strContains
  cases h : s.data with
  | nil => rfl
  | cons b bs => simp [listHasSub, listStartsWith_self]

theorem strContains_empty_pat (s : String) : strContains s "" = true := by
  unfold strContains
  cases h : s.data with
  | nil => rfl
  | cons b bs => simp [listHasSub, listStartsWith]

/-! ### The in-memory index engine

Embedding of `Index` and `IndexItem` from src/lookr-daemon/src/index.rs.
The Rust `HashMap<String, HashSet<String>>` is represented as an association
list from token key to the (duplicate-free) list of document identities; the
`HashSet` insertion is represented by append-if-missing. -/

/-- Embedding of `IndexItem`: `keys` are the normal path components of the
document's path, `value` is the full path string (the document identity). -/
structure IndexItem where
  keys : List String
  value : String
  deriving DecidableEq

/-- Embedding of `struct Index`: the map from token key to the set of document
identities holding that token. -/
structure Index where
  data : List (String × List String)
  deriving DecidableEq

/-- HashSet insert on a duplicate-free list: append `v` if it is missing. -/
def hsInsert (v : String) (s : List String) : List String :=
  if v ∈ s then s else s ++ [v]

/-- One key step of `Index::insert`: `data.entry(k).or_insert(empty).insert(v)`. -/
def mapInsert (k v : String) : List (String × List String) → List (String × List String)
  | [] => [(k, [v])]
  | p :: rest => if p.1 = k then (k, hsInsert v p.2) :: rest else p :: mapInsert k v rest

/-- One key step of `Index::remove`: remove `v` from the entry at `k` (if any)
and drop the entry when its set becomes empty. -/
def mapRemove (k v : String) : List (String × List String) → List (String × List String)
  | [] => []
  | p :: rest =>
    if p.1 = k then
      if p.2.erase v = [] then rest else (k, p.2.erase v) :: rest
    else p :: mapRemove k v rest

/-- The `for k in &entry.keys` loop of `Index::insert`. -/
def insertKeys (v : String) : List String → List (String × List String) → List (String × List String)
  | [], d => d
  | k :: ks, d => insertKeys v ks (mapInsert k v d)

/-- The `for k in &entry.keys` loop of `Index::remove`. -/
def removeKeys (v : String) : List String → List (String × List String) → List (String × List String)
  | [], d => d
  | k :: ks, d => removeKeys v ks (mapRemove k v d)

/-- Embedding of `Index::insert`. -/
def Index.insert (idx : Index) (e : IndexItem) : Index :=
  ⟨insertKeys e.value e.keys idx.data⟩

/-- Embedding of `Index::remove`. -/
def Index.remove (idx : Index) (e : IndexItem) : Index :=
  ⟨removeKeys e.value e.keys idx.data⟩

/-- Inner loop of `Index::query`: `r.insert(v)` for each identity of a matching entry. -/
def addValues : List String → List String → List String
  | [], acc => acc
  | v :: vs, acc => addValues vs (hsInsert v acc)

/-- Outer loop of `Index::query` over all entries of the map. -/
def queryFold (q : String) : List (String × List String) → List String → List String
  | [], acc => acc
  | p :: rest, acc => queryFold q rest (if strContains p.1 q then addValues p.2 acc else acc)

/-- Embedding of `Index::query`: the deduplicated identities of all entries whose
key contains `q` as a substring. -/
def Index.query (idx : Index) (q : String) : List String := queryFold q idx.data []

/-- Split a character list at every occurrence of `sep`, keeping empty pieces. -/
def splitChars (sep : Char) : List Char → List Char → List (List Char)
  | [], cur => [cur.reverse]
  | c :: cs, cur => if c == sep then cur.reverse :: splitChars sep cs [] else splitChars sep cs (c :: cur)

/-- Modelled from Rust std `Path::components` on Unix paths: the `Normal`
components, i.e. the separator-split pieces with root, empty, current-dir and
parent-dir components dropped.  Embedding of `From<PathBuf> for IndexItem`. -/
def pathComponents (s : String) : List String :=
  ((splitChars '/' s.data []).map String.mk).filter
    (fun c => !(c == "") && !(c == ".") && !(c == ".."))

/-- Embedding of `From<PathBuf> for IndexItem`: keys are the normal components,
the value is the full path string. -/
def itemOfPath (s : String) : IndexItem := ⟨pathComponents s, s⟩

/-- The empty index, as built by `Index::new`. -/
def Index.empty : Index := ⟨[]⟩

/-- The index of the five documents of the substring-query example. -/
def idx5 : Index :=
  (((((Index.empty).insert (itemOfPath "/foo/bar/baz_1")).insert
        (itemOfPath "/foo/bar/baz_2")).insert
      (itemOfPath "/a/b/c/d/e")).insert
    (itemOfPath "/fooo/bar/aaaaa")).insert (itemOfPath "/1/2/3/4/5/aaa.b.foo")

/-- Claim C4: for the index built from the five example paths, query "foo"
returns 4 results, "bar" returns 3, "ba" returns 3, "ABABA" returns 0, and
after removing /foo/bar/baz_1 the query "foo" returns 3. -/
theorem c4_substring_query_example :
    (idx5.query "foo").length = 4 ∧
    (idx5.query "bar").length = 3 ∧
    (idx5.query "ba").length = 3 ∧
    (idx5.query "ABABA").length = 0 ∧
    ((idx5.remove (itemOfPath "/foo/bar/baz_1")).query "foo").length = 3 := by
  refine ⟨by decide, by decide, by decide, by decide, by decide⟩

/-! ### Membership and duplicate-freeness of query results -/

theorem mem_hsInsert {x v : String} {s : List String} :
    x ∈ hsInsert v s ↔ x = v ∨ x ∈ s := by
  unfold hsInsert
  split
  · constructor
    · exact fun hx => Or.inr hx
    · rintro (rfl | hx) <;> assumption
  · simp [or_comm]

theorem nodup_hsInsert {v : String} {s : List String} (h : s.Nodup) :
    (hsInsert v s).Nodup := by
  unfold hsInsert
  split
  · exact h
  · rename_i hv
    simp [List.nodup_append, h]
    intro hmem
    exact hv hmem

theorem mem_addValues {x : String} {vs acc : List String} :
    x ∈ addValues vs acc ↔ x ∈ vs ∨ x ∈ acc := by
  induction vs generalizing acc with
  | nil => simp [addValues]
  | cons v vs ih => simp [addValues, ih, mem_hsInsert]; tauto

theorem nodup_addValues {vs acc : List String} (h : acc.Nodup) :
    (addValues vs acc).Nodup := by
  induction vs generalizing acc with
  | nil => exact h
  | cons v vs ih => exact ih (nodup_hsInsert h)

theorem mem_queryFold {x : String} {q : String} {d : List (String × List String)}
    {acc : List String} :
    x ∈ queryFold q d acc ↔
      (∃ p ∈ d, strContains p.1 q = true ∧ x ∈ p.2) ∨ x ∈ acc := by
  induction d generalizing acc with
  | nil => simp [queryFold]
  | cons p rest ih =>
    simp only [queryFold]
    split
    · rename_i hc
      rw [ih]
      constructor
      · rintro (⟨p', hp', hcp, hx⟩ | hx)
        · exact Or.inl ⟨p', List.mem_cons_of_mem _ hp', hcp, hx⟩
        · rcases mem_addValues.mp hx with hx | hx
          · exact Or.inl ⟨p, List.mem_cons_self _ _, hc, hx⟩
          · exact Or.inr hx
      · rintro (⟨p', hp', hcp, hx⟩ | hx)
        · rcases List.mem_cons.mp hp' with rfl | hp'
          · exact Or.inr (mem_addValues.mpr (Or.inl hx))
          · exact Or.inl ⟨p', hp', hcp, hx⟩
        · exact Or.inr (mem_addValues.mpr (Or.inr hx))
    · rename_i hc
      rw [ih]
      constructor
      · rintro (⟨p', hp', hcp, hx⟩ | hx)
        · exact Or.inl ⟨p', List.mem_cons_of_mem _ hp', hcp, hx⟩
        · exact Or.inr hx
      · rintro (⟨p', hp', hcp, hx⟩ | hx)
        · rcases List.mem_cons.mp hp' with rfl | hp'
          · exact absurd hcp (by simpa using hc)
          · exact Or.inl ⟨p', hp', hcp, hx⟩
        · exact Or.inr hx

theorem nodup_queryFold {q : String} {d : List (String × List String)}
    {acc : List String} (h : acc.Nodup) : (queryFold q d acc).Nodup := by
  induction d generalizing acc with
  | nil => exact h
  | cons p rest ih =>
    simp only [queryFold]
    split
    · exact ih (nodup_addValues h)
    · exact ih h

theorem Index.mem_query {idx : Index} {q x : String} :
    x ∈ idx.query q ↔ ∃ p ∈ idx.data, strContains p.1 q = true ∧ x ∈ p.2 := by
  unfold Index.query
  rw [mem_queryFold]
  simp

theorem Index.nodup_query (idx : Index) (q : String) : (idx.query q).Nodup :=
  nodup_queryFold List.nodup_nil

/-- Claim C10: querying the index with the empty string returns every indexed
document path exactly once: the result list is duplicate-free and its members
are exactly the union of all token entries. -/
theorem c10_empty_query (idx : Index) :
    (idx.query "").Nodup ∧ ∀ v, v ∈ idx.query "" ↔ ∃ p ∈ idx.data, v ∈ p.2 := by
  refine ⟨Index.nodup_query idx "", fun v => ?_⟩
  rw [Index.mem_query]
  constructor
  · rintro ⟨p, hp, _, hv⟩
    exact ⟨p, hp, hv⟩
  · rintro ⟨p, hp, hv⟩
    exact ⟨p, hp, strContains_empty_pat _, hv⟩

/-! ### Lookup in the association-list map and idempotence of insert -/

/-- Lookup of a key in the map, as `HashMap::get`. -/
def lookupKey : List (String × List String) → String → Option (List String)
  | [], _ => none
  | p :: rest, k => if p.1 = k then some p.2 else lookupKey rest k

/-- The entry at `k` exists and its identity set holds `v`. -/
def hasV (k v : String) (d : List (String × List String)) : Prop :=
  ∃ s, lookupKey d k = some s ∧ v ∈ s

theorem lookupKey_mem {d : List (String × List String)} {k : String} {s : List String}
    (h : lookupKey d k = some s) : (k, s) ∈ d := by
  induction d with
  | nil => simp [lookupKey] at h
  | cons p rest ih =>
    simp only [lookupKey] at h
    split at h
    · rename_i hpk
      have hs := Option.some.inj h
      exact List.mem_cons.mpr (Or.inl (by rw [← hpk, ← hs]))
    · exact List.mem_cons_of_mem _ (ih h)

theorem mapInsert_noop {k v : String} {d : List (String × List String)}
    (h : hasV k v d) : mapInsert k v d = d := by
  induction d with
  | nil => obtain ⟨s, hl, _⟩ := h; simp [lookupKey] at hl
  | cons p rest ih =>
    obtain ⟨s, hl, hv⟩ := h
    simp only [lookupKey] at hl
    simp only [mapInsert]
    split
    · rename_i hpk
      rw [if_pos hpk] at hl
      have hs := Option.some.inj hl
      have hvp : v ∈ p.2 := by rw [hs]; exact hv
      have hins : hsInsert v p.2 = p.2 := by unfold hsInsert; rw [if_pos hvp]
      rw [hins, ← hpk]
    · rename_i hpk
      rw [if_neg hpk] at hl
      rw [ih ⟨s, hl, hv⟩]

theorem hasV_mapInsert_self (k v : String) (d : List (String × List String)) :
    hasV k v (mapInsert k v d) := by
  induction d with
  | nil => exact ⟨[v], by simp [mapInsert, lookupKey], by simp⟩
  | cons p rest ih =>
    simp only [mapInsert]
    split
    · exact ⟨hsInsert v p.2, by simp [lookupKey], mem_hsInsert.mpr (Or.inl rfl)⟩
    · rename_i hpk
      obtain ⟨s, hl, hv⟩ := ih
      refine ⟨s, ?_, hv⟩
      simp only [lookupKey]
      rw [if_neg hpk]
      exact hl

theorem lookupKey_mapInsert_ne {k k' : String} (hne : ¬k = k') (v : String)
    (d : List (String × List String)) :
    lookupKey (mapInsert k v d) k' = lookupKey d k' := by
  induction d with
  | nil => simp [mapInsert, lookupKey, hne]
  | cons p rest ih =>
    simp only [mapInsert]
    split
    · rename_i hpk
      simp only [lookupKey]
      rw [if_neg hne, if_neg (by rw [hpk]; exact hne)]
    · simp only [lookupKey]
      by_cases h2 : p.1 = k'
      · rw [if_pos h2, if_pos h2]
      · rw [if_neg h2, if_neg h2]
        exact ih

theorem hasV_mapInsert_mono {k' v : String} (k : String)
    {d : List (String × List String)} (h : hasV k' v d) :
    hasV k' v (mapInsert k v d) := by
  by_cases hkk : k = k'
  · subst hkk; exact hasV_mapInsert_self k v d
  · obtain ⟨s, hl, hv⟩ := h
    exact ⟨s, by rw [lookupKey_mapInsert_ne hkk]; exact hl, hv⟩

theorem insertKeys_hasV_mono {k' v : String} (ks : List String)
    {d : List (String × List String)} (h : hasV k' v d) :
    hasV k' v (insertKeys v ks d) := by
  induction ks generalizing d with
  | nil => exact h
  | cons k ks ih => exact ih (hasV_mapInsert_mono k h)

theorem insertKeys_hasV_of_mem {k v : String} {ks : List String}
    {d : List (String × List String)} (h : k ∈ ks) :
    hasV k v (insertKeys v ks d) := by
  induction ks generalizing d with
  | nil => cases h
  | cons k0 ks ih =>
    simp only [insertKeys]
    rcases List.mem_cons.mp h with rfl | h
    · exact insertKeys_hasV_mono ks (hasV_mapInsert_self k v d)
    · exact ih h

theorem insertKeys_noop {v : String} {ks : List String}
    {d : List (String × List String)} (h : ∀ k ∈ ks, hasV k v d) :
    insertKeys v ks d = d := by
  induction ks with
  | nil => rfl
  | cons k ks ih =>
    simp only [insertKeys]
    rw [mapInsert_noop (h k (List.mem_cons_self _ _))]
    exact ih (fun k' hk' => h k' (List.mem_cons_of_mem _ hk'))

/-- Claim C5: insert is idempotent under document identity: inserting the same
document twice yields the same index state as inserting it once, and a query
for any of the document's tokens matches its identity exactly once. -/
theorem c5_insert_idempotent (idx : Index) (e : IndexItem) :
    (idx.insert e).insert e = idx.insert e ∧
    ∀ k ∈ e.keys, (((idx.insert e).insert e).query k).count e.value = 1 := by
  have hidem : (idx.insert e).insert e = idx.insert e := by
    show (⟨insertKeys e.value e.keys (insertKeys e.value e.keys idx.data)⟩ : Index) = _
    congr 1
    exact insertKeys_noop (fun k hk => insertKeys_hasV_of_mem hk)
  refine ⟨hidem, fun k hk => ?_⟩
  rw [hidem]
  have hmem : e.value ∈ (idx.insert e).query k := by
    obtain ⟨s, hl, hv⟩ := @insertKeys_hasV_of_mem k e.value e.keys idx.data hk
    exact Index.mem_query.mpr ⟨(k, s), lookupKey_mem hl, strContains_self k, hv⟩
  exact List.count_eq_one_of_mem (Index.nodup_query _ _) hmem

/-! ### Well-formedness invariants of the map -/

/-- Every entry's identity set is non-empty. -/
def SetsNE (d : List (String × List String)) : Prop := ∀ p ∈ d, p.2 ≠ []

/-- Every entry's identity set is duplicate-free. -/
def SetsND (d : List (String × List String)) : Prop := ∀ p ∈ d, p.2.Nodup

/-- The keys of the map are pairwise distinct. -/
def KeysND (d : List (String × List String)) : Prop := (d.map Prod.fst).Nodup

/-- Well-formedness of an index state, as maintained by the Rust HashMap of sets. -/
def WFI (idx : Index) : Prop := KeysND idx.data ∧ SetsND idx.data ∧ SetsNE idx.data

instance (d : List (String × List String)) : Decidable (KeysND d) := by
  unfold KeysND; infer_instance

instance (d : List (String × List String)) : Decidable (SetsND d) := by
  unfold SetsND; exact List.decidableBAll _ _

instance (d : List (String × List String)) : Decidable (SetsNE d) := by
  unfold SetsNE; exact List.decidableBAll _ _

instance (idx : Index) : Decidable (WFI idx) := by
  unfold WFI; infer_instance

theorem hsInsert_ne_nil (v : String) (s : List String) : hsInsert v s ≠ [] := by
  unfold hsInsert
  split
  · rename_i h
    intro hnil
    rw [hnil] at h
    cases h
  · simp

theorem setsNE_mapInsert {k v : String} {d : List (String × List String)}
    (h : SetsNE d) : SetsNE (mapInsert k v d) := by
  induction d with
  | nil =>
    intro p hp
    rcases List.mem_cons.mp hp with rfl | hp
    · simp
    · cases hp
  | cons p rest ih =>
    simp only [mapInsert]
    split
    · intro q hq
      rcases List.mem_cons.mp hq with rfl | hq
      · exact hsInsert_ne_nil _ _
      · exact h q (List.mem_cons_of_mem _ hq)
    · intro q hq
      rcases List.mem_cons.mp hq with rfl | hq
      · exact h q (List.mem_cons_self _ _)
      · exact ih (fun r hr => h r (List.mem_cons_of_mem _ hr)) q hq

theorem setsNE_mapRemove {k v : String} {d : List (String × List String)}
    (h : SetsNE d) : SetsNE (mapRemove k v d) := by
  induction d with
  | nil => intro p hp; cases hp
  | cons p rest ih =>
    simp only [mapRemove]
    split
    · split
      · exact fun q hq => h q (List.mem_cons_of_mem _ hq)
      · rename_i hne
        intro q hq
        rcases List.mem_cons.mp hq with rfl | hq
        · exact hne
        · exact h q (List.mem_cons_of_mem _ hq)
    · intro q hq
      rcases List.mem_cons.mp hq with rfl | hq
      · exact h q (List.mem_cons_self _ _)
      · exact ih (fun r hr => h r (List.mem_cons_of_mem _ hr)) q hq

theorem nodup_hsInsert' {v : String} {s : List String} (h : s.Nodup) :
    (hsInsert v s).Nodup := nodup_hsInsert h

theorem setsND_mapInsert {k v : String} {d : List (String × List String)}
    (h : SetsND d) : SetsND (mapInsert k v d) := by
  induction d with
  | nil =>
    intro p hp
    rcases List.mem_cons.mp hp with rfl | hp
    · simp
    · cases hp
  | cons p rest ih =>
    simp only [mapInsert]
    split
    · intro q hq
      rcases List.mem_cons.mp hq with rfl | hq
      · exact nodup_hsInsert (h p (List.mem_cons_self _ _))
      · exact h q (List.mem_cons_of_mem _ hq)
    · intro q hq
      rcases List.mem_cons.mp hq with rfl | hq
      · exact h q (List.mem_cons_self _ _)
      · exact ih (fun r hr => h r (List.mem_cons_of_mem _ hr)) q hq

theorem setsND_mapRemove {k v : String} {d : List (String × List String)}
    (h : SetsND d) : SetsND (mapRemove k v d) := by
  induction d with
  | nil => intro p hp; cases hp
  | cons p rest ih =>
    simp only [mapRemove]
    split
    · split
      · exact fun q hq => h q (List.mem_cons_of_mem _ hq)
      · intro q hq
        rcases List.mem_cons.mp hq with rfl | hq
        · exact (h p (List.mem_cons_self _ _)).erase v
        · exact h q (List.mem_cons_of_mem _ hq)
    · intro q hq
      rcases List.mem_cons.mp hq with rfl | hq
      · exact h q (List.mem_cons_self _ _)
      · exact ih (fun r hr => h r (List.mem_cons_of_mem _ hr)) q hq

theorem keys_mapInsert (k v : String) (d : List (String × List String)) :
    (mapInsert k v d).map Prod.fst =
      if k ∈ d.map Prod.fst then d.map Prod.fst else d.map Prod.fst ++ [k] := by
  induction d with
  | nil => simp [mapInsert]
  | cons p rest ih =>
    simp only [mapInsert]
    split
    · rename_i hpk
      simp [← hpk]
    · rename_i hpk
      simp only [List.map_cons]
      have hne : ¬k = p.1 := fun h => hpk h.symm
      by_cases hk : k ∈ rest.map Prod.fst
      · rw [if_pos (List.mem_cons.mpr (Or.inr hk))]
        rw [ih, if_pos hk]
      · rw [if_neg (by simp [hne, hk])]
        rw [ih, if_neg hk]
        simp

theorem keysND_mapInsert {k v : String} {d : List (String × List String)}
    (h : KeysND d) : KeysND (mapInsert k v d) := by
  unfold KeysND at *
  rw [keys_mapInsert]
  split
  · exact h
  · rename_i hk
    rw [List.nodup_append]
    exact ⟨h, List.nodup_singleton _, by simp [List.disjoint_singleton, hk]⟩

theorem keys_mapRemove_sublist (k v : String) (d : List (String × List String)) :
    List.Sublist ((mapRemove k v d).map Prod.fst) (d.map Prod.fst) := by
  induction d with
  | nil => exact List.Sublist.refl _
  | cons p rest ih =>
    simp only [mapRemove]
    split
    · split
      · exact List.sublist_cons_of_sublist _ (List.Sublist.refl _)
      · rename_i hpk _
        simp only [List.map_cons]
        rw [hpk]
    · exact List.Sublist.cons₂ _ ih

theorem keysND_mapRemove {k v : String} {d : List (String × List String)}
    (h : KeysND d) : KeysND (mapRemove k v d) :=
  List.Nodup.sublist (keys_mapRemove_sublist k v d) h

theorem wfd_insertKeys {v : String} {ks : List String} {d : List (String × List String)}
    (h : KeysND d ∧ SetsND d ∧ SetsNE d) :
    KeysND (insertKeys v ks d) ∧ SetsND (insertKeys v ks d) ∧ SetsNE (insertKeys v ks d) := by
  induction ks generalizing d with
  | nil => exact h
  | cons k ks ih =>
    exact ih ⟨keysND_mapInsert h.1, setsND_mapInsert h.2.1, setsNE_mapInsert h.2.2⟩

theorem wfd_removeKeys {v : String} {ks : List String} {d : List (String × List String)}
    (h : KeysND d ∧ SetsND d ∧ SetsNE d) :
    KeysND (removeKeys v ks d) ∧ SetsND (removeKeys v ks d) ∧ SetsNE (removeKeys v ks d) := by
  induction ks generalizing d with
  | nil => exact h
  | cons k ks ih =>
    exact ih ⟨keysND_mapRemove h.1, setsND_mapRemove h.2.1, setsNE_mapRemove h.2.2⟩

theorem wfi_insert {idx : Index} (h : WFI idx) (e : IndexItem) : WFI (idx.insert e) :=
  wfd_insertKeys h

theorem wfi_remove {idx : Index} (h : WFI idx) (e : IndexItem) : WFI (idx.remove e) :=
  wfd_removeKeys h

theorem wfi_empty : WFI Index.empty := by
  refine ⟨List.nodup_nil, ?_, ?_⟩ <;> intro p hp <;> cases hp

/-! ### Sequences of index operations, for the reachability invariant -/

/-- An insert or remove mutation of the in-memory index. -/
inductive IdxOp where
  | ins (e : IndexItem)
  | rem (e : IndexItem)
  deriving DecidableEq

/-- Apply one mutation. -/
def applyIdxOp (idx : Index) : IdxOp → Index
  | .ins e => idx.insert e
  | .rem e => idx.remove e

/-- Apply a sequence of mutations in order. -/
def applyIdxOps (ops : List IdxOp) (idx : Index) : Index := ops.foldl applyIdxOp idx

theorem wfi_applyIdxOps (ops : List IdxOp) (idx : Index) (h : WFI idx) :
    WFI (applyIdxOps ops idx) := by
  induction ops generalizing idx with
  | nil => exact h
  | cons op ops ih =>
    cases op with
    | ins e => exact ih _ (wfi_insert h e)
    | rem e => exact ih _ (wfi_remove h e)

/-- Claim C9: starting from the empty index, after any sequence of insert and
remove operations, every token key present in the map is associated with a
non-empty set of document identities. -/
theorem c9_no_empty_entries (ops : List IdxOp) :
    ((applyIdxOps ops Index.empty).data.all (fun p => !p.2.isEmpty)) = true := by
  have h := wfi_applyIdxOps ops Index.empty wfi_empty
  rw [List.all_eq_true]
  intro p hp
  have hne := h.2.2 p hp
  simpa [List.isEmpty_iff] using hne

/-! ### Insert followed by remove restores the prior state -/

/-- Keep the first occurrence of every key, dropping later duplicates. -/
def firstDedup (l : List String) : List String :=
  match l with
  | [] => []
  | k :: ks => k :: firstDedup (ks.filter (fun x => !(x == k)))
termination_by l.length
decreasing_by
  simp only [List.length_cons]
  exact Nat.lt_succ_of_le (List.length_filter_le _ _)

theorem firstDedup_nil : firstDedup [] = [] := by
  rw [firstDedup.eq_def]

theorem firstDedup_cons (k : String) (ks : List String) :
    firstDedup (k :: ks) = k :: firstDedup (ks.filter (fun x => !(x == k))) := by
  rw [firstDedup.eq_def]

theorem mem_firstDedup {x : String} {l : List String} : x ∈ firstDedup l ↔ x ∈ l := by
  induction l using firstDedup.induct with
  | case1 => rw [firstDedup_nil]
  | case2 k ks ih =>
    rw [firstDedup_cons]
    simp only [List.mem_cons, ih, List.mem_filter]
    by_cases hx : x = k
    · simp [hx]
    · simp [hx]

theorem firstDedup_nodup (l : List String) : (firstDedup l).Nodup := by
  induction l using firstDedup.induct with
  | case1 => rw [firstDedup_nil]; exact List.nodup_nil
  | case2 k ks ih =>
    rw [firstDedup_cons]
    refine List.Nodup.cons ?_ ih
    rw [mem_firstDedup]
    simp [List.mem_filter]

theorem insertKeys_filter_of_hasV {k v : String} {ks : List String}
    {d : List (String × List String)} (h : hasV k v d) :
    insertKeys v ks d = insertKeys v (ks.filter (fun x => !(x == k))) d := by
  induction ks generalizing d with
  | nil => rfl
  | cons k' ks ih =>
    by_cases hk : k' = k
    · subst hk
      have hfilter : (k' :: ks).filter (fun x => !(x == k')) =
          ks.filter (fun x => !(x == k')) := by
        simp [List.filter_cons]
      rw [hfilter]
      show insertKeys v ks (mapInsert k' v d) = _
      rw [mapInsert_noop h]
      exact ih h
    · have hfilter : (k' :: ks).filter (fun x => !(x == k)) =
          k' :: ks.filter (fun x => !(x == k)) := by
        simp [List.filter_cons, hk]
      rw [hfilter]
      show insertKeys v ks (mapInsert k' v d) =
        insertKeys v (ks.filter (fun x => !(x == k))) (mapInsert k' v d)
      exact ih (hasV_mapInsert_mono k' h)

theorem insertKeys_firstDedup (v : String) (ks : List String)
    (d : List (String × List String)) :
    insertKeys v ks d = insertKeys v (firstDedup ks) d := by
  induction ks using firstDedup.induct generalizing d with
  | case1 => rw [firstDedup_nil]
  | case2 k ks ih =>
    rw [firstDedup_cons]
    show insertKeys v ks (mapInsert k v d) =
      insertKeys v (firstDedup (ks.filter (fun x => !(x == k)))) (mapInsert k v d)
    rw [← ih (mapInsert k v d)]
    exact insertKeys_filter_of_hasV (hasV_mapInsert_self k v d)

/-- The entry at `k`, if present, does not hold `v`. -/
def lacksV (k v : String) (d : List (String × List String)) : Prop :=
  ∀ s, lookupKey d k = some s → v ∉ s

theorem mapRemove_noop {k v : String} {d : List (String × List String)}
    (h : lacksV k v d) (hNE : SetsNE d) : mapRemove k v d = d := by
  induction d with
  | nil => rfl
  | cons p rest ih =>
    simp only [mapRemove]
    split
    · rename_i hpk
      have hv : v ∉ p.2 := h p.2 (by simp only [lookupKey]; rw [if_pos hpk])
      have her : p.2.erase v = p.2 := List.erase_of_not_mem hv
      rw [her, if_neg (hNE p (List.mem_cons_self _ _))]
      rw [← hpk]
    · rename_i hpk
      rw [ih (fun s hs => h s (by simp only [lookupKey]; rw [if_neg hpk]; exact hs))
          (fun q hq => hNE q (List.mem_cons_of_mem _ hq))]

theorem lookupKey_eq_none {d : List (String × List String)} {k : String}
    (h : k ∉ d.map Prod.fst) : lookupKey d k = none := by
  induction d with
  | nil => rfl
  | cons p rest ih =>
    simp only [List.map_cons, List.mem_cons] at h
    push_neg at h
    simp only [lookupKey]
    rw [if_neg (fun hpk => h.1 hpk.symm)]
    exact ih h.2

theorem lookupKey_mapRemove_ne {k k' : String} (hne : ¬k = k') (v : String)
    (d : List (String × List String)) :
    lookupKey (mapRemove k v d) k' = lookupKey d k' := by
  induction d with
  | nil => rfl
  | cons p rest ih =>
    simp only [mapRemove]
    split
    · rename_i hpk
      split
      · simp only [lookupKey]
        rw [if_neg (by rw [hpk]; exact hne)]
      · simp only [lookupKey]
        rw [if_neg hne, if_neg (by rw [hpk]; exact hne)]
    · rename_i hpk
      simp only [lookupKey]
      by_cases h2 : p.1 = k'
      · rw [if_pos h2, if_pos h2]
      · rw [if_neg h2, if_neg h2]
        exact ih

theorem lacksV_mapRemove_self {k v : String} {d : List (String × List String)}
    (hK : KeysND d) (hS : SetsND d) : lacksV k v (mapRemove k v d) := by
  induction d with
  | nil => intro s hs; cases hs
  | cons p rest ih =>
    simp only [mapRemove]
    have hKr : KeysND rest := List.Nodup.of_cons hK
    have hSr : SetsND rest := fun q hq => hS q (List.mem_cons_of_mem _ hq)
    split
    · rename_i hpk
      have hknotin : k ∉ rest.map Prod.fst := by
        intro hmem
        exact (List.nodup_cons.mp hK).1 (hpk ▸ hmem)
      split
      · intro s hs
        rw [lookupKey_eq_none hknotin] at hs
        cases hs
      · intro s hs
        have hserase : p.2.erase v = s := by simpa [lookupKey] using hs
        rw [← hserase]
        intro hvin
        have hnd := hS p (List.mem_cons_self _ _)
        exact absurd ((List.Nodup.mem_erase_iff hnd).mp hvin).1 (by simp)
    · rename_i hpk
      intro s hs
      simp only [lookupKey] at hs
      rw [if_neg hpk] at hs
      exact ih hKr hSr s hs

theorem lacksV_mapRemove_mono {k' v : String} (k : String)
    {d : List (String × List String)} (hK : KeysND d) (hS : SetsND d)
    (h : lacksV k' v d) : lacksV k' v (mapRemove k v d) := by
  by_cases hkk : k = k'
  · subst hkk; exact lacksV_mapRemove_self hK hS
  · intro s hs
    rw [lookupKey_mapRemove_ne hkk] at hs
    exact h s hs

theorem removeKeys_filter_of_lacksV {k v : String} {ks : List String}
    {d : List (String × List String)} (hK : KeysND d) (hS : SetsND d)
    (hNE : SetsNE d) (h : lacksV k v d) :
    removeKeys v ks d = removeKeys v (ks.filter (fun x => !(x == k))) d := by
  induction ks generalizing d with
  | nil => rfl
  | cons k' ks ih =>
    by_cases hk : k' = k
    · subst hk
      have hfilter : (k' :: ks).filter (fun x => !(x == k')) =
          ks.filter (fun x => !(x == k')) := by
        simp [List.filter_cons]
      rw [hfilter]
      show removeKeys v ks (mapRemove k' v d) = _
      rw [mapRemove_noop h hNE]
      exact ih hK hS hNE h
    · have hfilter : (k' :: ks).filter (fun x => !(x == k)) =
          k' :: ks.filter (fun x => !(x == k)) := by
        simp [List.filter_cons, hk]
      rw [hfilter]
      show removeKeys v ks (mapRemove k' v d) =
        removeKeys v (ks.filter (fun x => !(x == k))) (mapRemove k' v d)
      exact ih (keysND_mapRemove hK) (setsND_mapRemove hS) (setsNE_mapRemove hNE)
        (lacksV_mapRemove_mono k' hK hS h)

theorem removeKeys_firstDedup (v : String) (ks : List String)
    {d : List (String × List String)} (hK : KeysND d) (hS : SetsND d)
    (hNE : SetsNE d) :
    removeKeys v ks d = removeKeys v (firstDedup ks) d := by
  induction ks using firstDedup.induct generalizing d with
  | case1 => rw [firstDedup_nil]
  | case2 k ks ih =>
    rw [firstDedup_cons]
    show removeKeys v ks (mapRemove k v d) =
      removeKeys v (firstDedup (ks.filter (fun x => !(x == k)))) (mapRemove k v d)
    rw [← ih (keysND_mapRemove hK) (setsND_mapRemove hS) (setsNE_mapRemove hNE)]
    exact removeKeys_filter_of_lacksV (keysND_mapRemove hK) (setsND_mapRemove hS)
      (setsNE_mapRemove hNE) (lacksV_mapRemove_self hK hS)

theorem mapRemove_mapInsert_comm {k k' v : String} (hne : ¬k = k')
    (d : List (String × List String)) :
    mapRemove k v (mapInsert k' v d) = mapInsert k' v (mapRemove k v d) := by
  have hne' : ¬k' = k := fun h => hne h.symm
  induction d with
  | nil => simp [mapInsert, mapRemove, hne']
  | cons p rest ih =>
    obtain ⟨pa, pb⟩ := p
    by_cases h1 : pa = k'
    · subst h1
      simp [mapInsert, mapRemove, hne']
    · by_cases h2 : pa = k
      · subst h2
        by_cases he : pb.erase v = [] <;> simp [mapInsert, mapRemove, hne, hne', he]
      · simp [mapInsert, mapRemove, h1, h2, ih]

theorem mapRemove_insertKeys_comm {k v : String} {ks : List String}
    (hk : k ∉ ks) (d : List (String × List String)) :
    mapRemove k v (insertKeys v ks d) = insertKeys v ks (mapRemove k v d) := by
  induction ks generalizing d with
  | nil => rfl
  | cons k'' ks ih =>
    have hne : ¬k = k'' := fun h => hk (h ▸ List.mem_cons_self _ _)
    simp only [insertKeys]
    rw [ih (fun h => hk (List.mem_cons_of_mem _ h))]
    rw [mapRemove_mapInsert_comm hne]

theorem mapRemove_mapInsert_cancel {k v : String} {d : List (String × List String)}
    (hNE : SetsNE d) (hF : ∀ p ∈ d, v ∉ p.2) :
    mapRemove k v (mapInsert k v d) = d := by
  induction d with
  | nil => simp [mapInsert, mapRemove, List.erase_cons]
  | cons p rest ih =>
    obtain ⟨pa, pb⟩ := p
    have hv : v ∉ pb := hF (pa, pb) (List.mem_cons_self _ _)
    have hne : pb ≠ [] := hNE (pa, pb) (List.mem_cons_self _ _)
    have ihr := ih (fun q hq => hNE q (List.mem_cons_of_mem _ hq))
      (fun q hq => hF q (List.mem_cons_of_mem _ hq))
    by_cases h2 : pa = k
    · subst h2
      have herase : (hsInsert v pb).erase v = pb := by
        unfold hsInsert
        rw [if_neg hv, List.erase_append_right _ hv]
        simp [List.erase_cons]
      simp [mapInsert, mapRemove, herase, hne]
    · simp [mapInsert, mapRemove, h2, ihr]

theorem removeKeys_insertKeys_cancel {v : String} {ks : List String}
    {d : List (String × List String)} (hnd : ks.Nodup) (hNE : SetsNE d)
    (hF : ∀ p ∈ d, v ∉ p.2) :
    removeKeys v ks (insertKeys v ks d) = d := by
  induction ks with
  | nil => rfl
  | cons k ks ih =>
    have hk : k ∉ ks := (List.nodup_cons.mp hnd).1
    simp only [insertKeys, removeKeys]
    rw [mapRemove_insertKeys_comm hk]
    rw [mapRemove_mapInsert_cancel hNE hF]
    exact ih (List.nodup_cons.mp hnd).2

/-- Claim C6: inserting a document into the empty index and removing the same
identity leaves no match for any query; more generally, insert followed by
remove of the same document restores the prior index state whenever the
document's identity was not previously present. -/
theorem c6_insert_remove_restores (e : IndexItem) (idx : Index) (hWF : WFI idx)
    (hfresh : ∀ p ∈ idx.data, e.value ∉ p.2) :
    (idx.insert e).remove e = idx ∧
    ∀ q, ((Index.empty.insert e).remove e).query q = [] := by
  have main : ∀ (j : Index), WFI j → (∀ p ∈ j.data, e.value ∉ p.2) →
      (j.insert e).remove e = j := by
    intro j hW hF
    show (⟨removeKeys e.value e.keys (insertKeys e.value e.keys j.data)⟩ : Index) = j
    rw [insertKeys_firstDedup]
    have hX := @wfd_insertKeys e.value (firstDedup e.keys) j.data
      ⟨hW.1, hW.2.1, hW.2.2⟩
    rw [removeKeys_firstDedup e.value e.keys hX.1 hX.2.1 hX.2.2]
    rw [removeKeys_insertKeys_cancel (firstDedup_nodup e.keys) hW.2.2 hF]
  refine ⟨main idx hWF hfresh, fun q => ?_⟩
  have hz : (Index.empty.insert e).remove e = Index.empty :=
    main Index.empty wfi_empty (by intro p hp; cases hp)
  rw [hz]
  rfl

/-! ### The indexing pipeline (src/lookr-daemon/src/indexer.rs)

The loop state carries the u32 counter and last_change variables, the engine
(committed snapshot plus uncommitted write buffer) and a trace of commit
attempts.  Commit success is decided by an oracle indexed by the attempt
number, standing for the storage outcome of the external engine. -/

/-- Embedding of `WatcherError` (construction-time variants). -/
inductive WatcherError where
  | pathIsNotADir
  | pathDoesNotExist
  deriving DecidableEq

/-- Embedding of `IndexerError` (the variants reachable in the model). -/
inductive IndexerError where
  | tantivy
  | watcherRx
  | watcher (e : WatcherError)
  deriving DecidableEq

/-- A buffered mutation of the index engine: `add_document` or `delete_term`. -/
inductive BufOp where
  | add (e : IndexItem)
  | del (e : IndexItem)
  deriving DecidableEq

/-- Modelled from the spec: the engine holds the committed snapshot and the
uncommitted write buffer.  The delegated segment engine itself is external to
this repository; only the insert/delete/commit/snapshot contract is modelled,
with the in-memory index as the snapshot realization. -/
structure Engine where
  committed : Index
  buffer : List BufOp
  deriving DecidableEq

/-- Apply one buffered mutation to a snapshot. -/
def applyBufOp (idx : Index) : BufOp → Index
  | .add e => idx.insert e
  | .del e => idx.remove e

/-- Apply a whole buffer in order. -/
def applyBatch (idx : Index) (ops : List BufOp) : Index := ops.foldl applyBufOp idx

/-- Modelled from the spec: commit atomically publishes all buffered mutations
as one new snapshot and clears the buffer. -/
def Engine.commit (en : Engine) : Engine := ⟨applyBatch en.committed en.buffer, []⟩

/-- The commit sites of `Indexer::index`: per-root walk commit, the
thousand-mutation threshold commit, and the idle-flush commit. -/
inductive CommitKind where
  | walk
  | threshold
  | idle
  deriving DecidableEq

/-- A recv_timeout outcome on the watcher channel. -/
inductive RecvEvent where
  | create (p : String)
  | remove (p : String)
  | rename (src dst : String)
  | timeout
  | disconnected
  deriving DecidableEq

/-- Loop state of `Indexer::index`: the u32 counter and last_change, the engine
and the trace of commit attempts (site, success). -/
structure PipeState where
  counter : Nat
  lastChange : Nat
  engine : Engine
  trace : List (CommitKind × Bool)
  deriving DecidableEq

/-- One commit attempt: the oracle decides whether this attempt succeeds; on
failure the engine is left as it was (the source only logs the error). -/
def attemptCommit (oracle : Nat → Bool) (kind : CommitKind) (s : PipeState) : PipeState :=
  { s with engine := if oracle s.trace.length then s.engine.commit else s.engine,
           trace := s.trace ++ [(kind, oracle s.trace.length)] }

/-- Top of the loop body: `if counter % 1000 == 0`, commit and ignore failure. -/
def thresholdPhase (oracle : Nat → Bool) (s : PipeState) : PipeState :=
  if s.counter % 1000 == 0 then attemptCommit oracle CommitKind.threshold s else s

/-- Apply one event's buffered mutations and increment the wrapping u32 counter. -/
def bufferAdd (s : PipeState) (ops : List BufOp) : PipeState :=
  { s with engine := { s.engine with buffer := s.engine.buffer ++ ops },
           counter := (s.counter + 1) % 4294967296 }

/-- The timeout arm: `if last_change != counter`, record the counter and commit,
ignoring failure; otherwise do nothing. -/
def timeoutPhase (oracle : Nat → Bool) (s : PipeState) : PipeState :=
  if s.lastChange ≠ s.counter then
    attemptCommit oracle CommitKind.idle { s with lastChange := s.counter }
  else s

/-- The buffered mutations of one Rename event: delete src, then insert dst,
inside the same uncommitted batch. -/
def renameOps (src dst : String) : List BufOp :=
  [BufOp.del (itemOfPath src), BufOp.add (itemOfPath dst)]

/-- One iteration of the steady-state loop of `Indexer::index` for one
recv_timeout outcome: threshold check at the top, then the event match. -/
def stepIter (oracle : Nat → Bool) (s : PipeState) :
    RecvEvent → Except IndexerError PipeState
  | .create p => .ok (bufferAdd (thresholdPhase oracle s) [BufOp.add (itemOfPath p)])
  | .remove p => .ok (bufferAdd (thresholdPhase oracle s) [BufOp.del (itemOfPath p)])
  | .rename src dst => .ok (bufferAdd (thresholdPhase oracle s) (renameOps src dst))
  | .timeout => .ok (timeoutPhase oracle (thresholdPhase oracle s))
  | .disconnected => .error IndexerError.watcherRx

/-- The steady-state loop over a finite schedule of recv outcomes: it only
returns early on a disconnect, which is surfaced as an error. -/
def runLoop (oracle : Nat → Bool) : List RecvEvent → PipeState → Except IndexerError PipeState
  | [], s => .ok s
  | ev :: evs, s =>
    match stepIter oracle s ev with
    | .ok s' => runLoop oracle evs s'
    | .error e => .error e

/-- Loop entry state: `counter = 1`, `last_change = counter`, the engine holding
the snapshot left by the walk phase, an empty buffer and no commits recorded. -/
def initPipe (idx : Index) : PipeState := ⟨1, 1, ⟨idx, []⟩, []⟩

/-- A configured root as the filesystem reports it. -/
structure PathInfo where
  path : String
  pathExists : Bool
  isDir : Bool
  deriving DecidableEq

/-- Embedding of `FsWatcher::new`: every configured root is checked to exist and
be a directory before any watching starts; the first failing root aborts
construction with the corresponding error. -/
def validateRoots : List PathInfo → Except WatcherError (List PathInfo)
  | [] => .ok []
  | p :: ps =>
    if !p.pathExists then .error WatcherError.pathDoesNotExist
    else if !p.isDir then .error WatcherError.pathIsNotADir
    else
      match validateRoots ps with
      | .ok rest => .ok (p :: rest)
      | .error e => .error e

/-- Walk phase of `Indexer::index`: per root, add every walked entry to the
buffer, then commit; here a commit failure propagates (question-mark operator
in the source), unlike in the steady-state loop. -/
def walkPhase (oracle : Nat → Bool) : List (List String) → PipeState → Except IndexerError PipeState
  | [], s => .ok s
  | docs :: roots, s =>
    let s1 := { s with engine := { s.engine with
      buffer := s.engine.buffer ++ docs.map (fun p => BufOp.add (itemOfPath p)) } }
    if oracle s1.trace.length then
      walkPhase oracle roots (attemptCommit oracle CommitKind.walk s1)
    else .error IndexerError.tantivy

/-- Embedding of `Indexer::index`: construct the watcher (validating all roots),
walk each root with a commit per root, then enter the steady-state loop. -/
def indexerRun (oracle : Nat → Bool) (paths : List PathInfo) (roots : List (List String))
    (events : List RecvEvent) : Except IndexerError PipeState :=
  match validateRoots paths with
  | .error e => .error (IndexerError.watcher e)
  | .ok _ =>
    match walkPhase oracle roots (initPipe Index.empty) with
    | .error e => .error e
    | .ok s => runLoop oracle events s

/-- Trace of a loop result (empty on error). -/
def traceOf (r : Except IndexerError PipeState) : List (CommitKind × Bool) :=
  match r with
  | .ok s => s.trace
  | .error _ => []

/-- Buffer of a loop result (empty on error). -/
def bufferOf (r : Except IndexerError PipeState) : List BufOp :=
  match r with
  | .ok s => s.engine.buffer
  | .error _ => []

theorem exceptIsOk_ok {ε α : Type} (a : α) : (Except.ok a : Except ε α).isOk = true := rfl

theorem exceptIsOk_error {ε α : Type} (e : ε) :
    (Except.error e : Except ε α).isOk = false := rfl

/-- The all-failing commit oracle. -/
def failOracle : Nat → Bool := fun _ => false

/-- The all-succeeding commit oracle. -/
def okOracle : Nat → Bool := fun _ => true

/-! ### Claim C1: is a loop commit failure fatal? -/

/-- Schedule for the C1 counterexample: one create, an idle timeout whose flush
commit fails, then another create. -/
def c1Events : List RecvEvent :=
  [RecvEvent.create "/w", RecvEvent.timeout, RecvEvent.create "/z"]

/-- Claim C1 counterexample: with every commit failing, the idle-flush commit
attempt of the second iteration returns an error, yet the loop neither stops
nor surfaces it: the run ends in an ok state whose trace records the failed
commit and whose buffer holds the insert processed after the failure. -/
theorem c1_counterexample :
    (runLoop failOracle c1Events (initPipe Index.empty)).isOk = true ∧
    traceOf (runLoop failOracle c1Events (initPipe Index.empty)) =
      [(CommitKind.idle, false)] ∧
    bufferOf (runLoop failOracle c1Events (initPipe Index.empty)) =
      [BufOp.add (itemOfPath "/w"), BufOp.add (itemOfPath "/z")] := by
  exact ⟨by decide, by decide, by decide⟩

/-- The loop returns an error exactly when the schedule contains a channel
disconnect, for every commit oracle and every start state. -/
theorem runLoop_isOk_iff (oracle : Nat → Bool) (events : List RecvEvent)
    (s : PipeState) :
    (runLoop oracle events s).isOk = true ↔ RecvEvent.disconnected ∉ events := by
  induction events generalizing s with
  | nil => simp [runLoop, exceptIsOk_ok]
  | cons ev evs ih =>
    cases ev with
    | create p => simp [runLoop, stepIter, ih]
    | remove p => simp [runLoop, stepIter, ih]
    | rename src dst => simp [runLoop, stepIter, ih]
    | timeout => simp [runLoop, stepIter, ih]
    | disconnected => simp [runLoop, stepIter, exceptIsOk_error]

/-- Claim C1 amended: a failed commit attempt in the steady-state loop is
logged and ignored; whatever the commit outcomes, the loop returns an error
exactly when the schedule contains a channel disconnect. -/
theorem c1_amended_only_disconnect_fatal (oracle : Nat → Bool)
    (events : List RecvEvent) (s : PipeState) :
    (runLoop oracle events s).isOk = true ↔ RecvEvent.disconnected ∉ events :=
  runLoop_isOk_iff oracle events s

/-! ### Claim C2: commits on timeouts with no new mutations -/

/-- Processing a block of create events below the threshold: no commit fires,
the counter advances by the block length and the buffer grows accordingly. -/
theorem runLoop_replicate_create :
    ∀ (n : Nat) (oracle : Nat → Bool) (p : String) (evs : List RecvEvent)
      (c lc : Nat) (eng : Engine) (tr : List (CommitKind × Bool)),
      (∀ i < n, ((c + i) % 1000 == 0) = false) → c + n < 4294967296 →
      runLoop oracle (List.replicate n (RecvEvent.create p) ++ evs) ⟨c, lc, eng, tr⟩ =
        runLoop oracle evs
          ⟨c + n, lc,
           ⟨eng.committed, eng.buffer ++ List.replicate n (BufOp.add (itemOfPath p))⟩, tr⟩
  | 0, oracle, p, evs, c, lc, eng, tr, _, _ => by
    simp only [List.replicate, List.nil_append, Nat.add_zero, List.append_nil]
  | (n + 1), oracle, p, evs, c, lc, eng, tr, h1, h2 => by
    rw [List.replicate_succ, List.cons_append]
    have hth : thresholdPhase oracle ⟨c, lc, eng, tr⟩ = ⟨c, lc, eng, tr⟩ := by
      unfold thresholdPhase
      have h0 := h1 0 (Nat.succ_pos n)
      rw [Nat.add_zero] at h0
      simp [h0]
    have hmod : (c + 1) % 4294967296 = c + 1 := Nat.mod_eq_of_lt (by omega)
    have hstep : stepIter oracle ⟨c, lc, eng, tr⟩ (RecvEvent.create p) =
        Except.ok ⟨c + 1, lc,
          ⟨eng.committed, eng.buffer ++ [BufOp.add (itemOfPath p)]⟩, tr⟩ := by
      simp only [stepIter, hth, bufferAdd, hmod]
    rw [runLoop, hstep]
    show runLoop oracle (List.replicate n (RecvEvent.create p) ++ evs)
      ⟨c + 1, lc, ⟨eng.committed, eng.buffer ++ [BufOp.add (itemOfPath p)]⟩, tr⟩ = _
    rw [runLoop_replicate_create n oracle p evs (c + 1) lc
      ⟨eng.committed, eng.buffer ++ [BufOp.add (itemOfPath p)]⟩ tr
      (by
        intro i hi
        have := h1 (i + 1) (by omega)
        rw [show c + 1 + i = c + (i + 1) by omega]
        exact this)
      (by omega)]
    have hc : c + 1 + n = c + (n + 1) := by omega
    have hb : (eng.buffer ++ [BufOp.add (itemOfPath p)]) ++
        List.replicate n (BufOp.add (itemOfPath p)) =
        eng.buffer ++ List.replicate (n + 1) (BufOp.add (itemOfPath p)) := by
      rw [List.append_assoc]
      simp [List.replicate_succ]
    show runLoop oracle evs
      ⟨c + 1 + n, lc,
       ⟨eng.committed, (eng.buffer ++ [BufOp.add (itemOfPath p)]) ++
         List.replicate n (BufOp.add (itemOfPath p))⟩, tr⟩ = _
    rw [hc, hb]

/-- Schedule for the C2 evaluation: 999 creates reach the threshold, then three
timeouts arrive with no further mutations. -/
def c2Events : List RecvEvent :=
  List.replicate 999 (RecvEvent.create "/w") ++
    [RecvEvent.timeout, RecvEvent.timeout, RecvEvent.timeout]

/-- Claim C2 evaluated on the code: after 999 creates, iteration 1000 commits at
the threshold, then the timeout in the same iteration commits again although no
mutation arrived after the threshold commit (last_change is only updated by
idle flushes), and both following idle iterations re-commit at the top because
the counter stays at a multiple of 1000.  The trace shows four commits where
the claim requires at most one. -/
theorem c2_code_eval :
    traceOf (runLoop okOracle c2Events (initPipe Index.empty)) =
      [(CommitKind.threshold, true), (CommitKind.idle, true),
       (CommitKind.threshold, true), (CommitKind.threshold, true)] ∧
    (runLoop okOracle c2Events (initPipe Index.empty)).isOk = true := by
  have hpre : runLoop okOracle c2Events (initPipe Index.empty) =
      runLoop okOracle [RecvEvent.timeout, RecvEvent.timeout, RecvEvent.timeout]
        ⟨1 + 999, 1,
         ⟨Index.empty, [] ++ List.replicate 999 (BufOp.add (itemOfPath "/w"))⟩, []⟩ :=
    runLoop_replicate_create 999 okOracle "/w"
      [RecvEvent.timeout, RecvEvent.timeout, RecvEvent.timeout] 1 1 ⟨Index.empty, []⟩ []
      (by
        intro i hi
        have hlt : 1 + i < 1000 := by omega
        rw [Nat.mod_eq_of_lt hlt]
        simp only [beq_eq_false_iff_ne]
        omega)
      (by omega)
  constructor
  · rw [hpre]
    generalize ([] ++ List.replicate 999 (BufOp.add (itemOfPath "/w"))) = B
    norm_num
    simp [runLoop, stepIter, timeoutPhase, thresholdPhase, attemptCommit,
      okOracle, traceOf]
  · rw [runLoop_isOk_iff]
    intro hmem
    rw [show c2Events = List.replicate 999 (RecvEvent.create "/w") ++
      [RecvEvent.timeout, RecvEvent.timeout, RecvEvent.timeout] from rfl] at hmem
    rcases List.mem_append.mp hmem with h | h
    · exact absurd (List.eq_of_mem_replicate h) (by simp)
    · simp at h

/-! ### Claim C7: root validation before watching -/

theorem validateRoots_isOk_iff (paths : List PathInfo) :
    (validateRoots paths).isOk = true ↔
      ∀ p ∈ paths, p.pathExists = true ∧ p.isDir = true := by
  induction paths with
  | nil => simp [validateRoots, exceptIsOk_ok]
  | cons p ps ih =>
    by_cases hex : p.pathExists = true
    · by_cases hdir : p.isDir = true
      · cases hv : validateRoots ps with
        | ok rest =>
          have hgoal : validateRoots (p :: ps) = Except.ok (p :: rest) := by
            simp [validateRoots, hex, hdir, hv]
          rw [hv, exceptIsOk_ok] at ih
          rw [hgoal, exceptIsOk_ok]
          constructor
          · intro _ q hq
            rcases List.mem_cons.mp hq with rfl | hq
            · exact ⟨hex, hdir⟩
            · exact (ih.mp rfl) q hq
          · intro _; rfl
        | error e =>
          have hgoal : validateRoots (p :: ps) = Except.error e := by
            simp [validateRoots, hex, hdir, hv]
          rw [hgoal]
          rw [hv, exceptIsOk_error] at ih
          rw [exceptIsOk_error]
          constructor
          · intro hfalse; cases hfalse
          · intro hall
            exact absurd (ih.mpr (fun q hq => hall q (List.mem_cons_of_mem _ hq)))
              (by simp)
      · have hdirf : p.isDir = false := by
          revert hdir; cases p.isDir <;> simp
        have hgoal : validateRoots (p :: ps) = Except.error WatcherError.pathIsNotADir := by
          simp [validateRoots, hex, hdirf]
        rw [hgoal, exceptIsOk_error]
        constructor
        · intro hfalse; cases hfalse
        · intro hall
          exact absurd (hall p (List.mem_cons_self _ _)).2 (by simp [hdirf])
    · have hexf : p.pathExists = false := by
        revert hex; cases p.pathExists <;> simp
      have hgoal : validateRoots (p :: ps) = Except.error WatcherError.pathDoesNotExist := by
        simp [validateRoots, hexf]
      rw [hgoal, exceptIsOk_error]
      constructor
      · intro hfalse; cases hfalse
      · intro hall
        exact absurd (hall p (List.mem_cons_self _ _)).1 (by simp [hexf])

/-- Claim C7: watcher construction fails if and only if some configured root
does not exist or is not a directory, and on a failing root the whole indexer
run surfaces the watcher error before any walking or watching happens,
whatever the commit oracle, walk contents and event schedule. -/
theorem c7_roots_validated_before_watching (paths : List PathInfo) :
    ((validateRoots paths).isOk = true ↔
      ∀ p ∈ paths, p.pathExists = true ∧ p.isDir = true) ∧
    ((validateRoots paths).isOk = false →
      ∀ oracle roots events, ∃ e,
        indexerRun oracle paths roots events = Except.error (IndexerError.watcher e)) := by
  refine ⟨validateRoots_isOk_iff paths, ?_⟩
  intro hfail oracle roots events
  unfold indexerRun
  cases hv : validateRoots paths with
  | ok rest =>
    rw [hv, exceptIsOk_ok] at hfail
    cases hfail
  | error e => exact ⟨e, rfl⟩

/-! ### Entry-level lemmas for rename atomicity -/

theorem hsInsert_of_mem {v : String} {s : List String} (h : v ∈ s) :
    hsInsert v s = s := by
  unfold hsInsert
  rw [if_pos h]

theorem hsInsert_idem (v : String) (s : List String) :
    hsInsert v (hsInsert v s) = hsInsert v s :=
  hsInsert_of_mem (mem_hsInsert.mpr (Or.inl rfl))

theorem mem_keys_of_mem {p : String × List String} {d : List (String × List String)}
    (h : p ∈ d) : p.1 ∈ d.map Prod.fst :=
  List.mem_map_of_mem Prod.fst h

theorem exists_of_mem_keys {d : List (String × List String)} {k : String}
    (h : k ∈ d.map Prod.fst) : ∃ p ∈ d, p.1 = k := by
  rcases List.mem_map.mp h with ⟨p, hp, hpk⟩
  exact ⟨p, hp, hpk⟩

theorem keys_removeKeys_sublist (v : String) (ks : List String)
    (d : List (String × List String)) :
    List.Sublist ((removeKeys v ks d).map Prod.fst) (d.map Prod.fst) := by
  induction ks generalizing d with
  | nil => exact List.Sublist.refl _
  | cons k ks ih => exact List.Sublist.trans (ih (mapRemove k v d)) (keys_mapRemove_sublist k v d)

theorem mem_keys_insertKeys {p : String × List String} {v : String}
    {ks : List String} {d : List (String × List String)}
    (h : p ∈ insertKeys v ks d) : p.1 ∈ d.map Prod.fst ∨ p.1 ∈ ks := by
  induction ks generalizing d with
  | nil => exact Or.inl (mem_keys_of_mem h)
  | cons k ks ih =>
    rcases ih h with hk | hk
    · rw [keys_mapInsert] at hk
      split at hk
      · exact Or.inl hk
      · rcases List.mem_append.mp hk with h1 | h1
        · exact Or.inl h1
        · simp at h1
          exact Or.inr (by rw [h1]; exact List.mem_cons_self _ _)
    · exact Or.inr (List.mem_cons_of_mem _ hk)

theorem mem_mapRemove_ne {q : String × List String} {k v : String}
    {d : List (String × List String)} (hq : q ∈ d) (hne : ¬q.1 = k) :
    q ∈ mapRemove k v d := by
  induction d with
  | nil => cases hq
  | cons r rest ih =>
    simp only [mapRemove]
    split
    · rename_i hrk
      rcases List.mem_cons.mp hq with rfl | h2
      · exact absurd hrk hne
      · split
        · exact h2
        · exact List.mem_cons_of_mem _ h2
    · rcases List.mem_cons.mp hq with rfl | h2
      · exact List.mem_cons_self _ _
      · exact List.mem_cons_of_mem _ (ih h2)

theorem mem_mapInsert_ne {q : String × List String} {k v : String}
    {d : List (String × List String)} (hq : q ∈ d) (hne : ¬q.1 = k) :
    q ∈ mapInsert k v d := by
  induction d with
  | nil => cases hq
  | cons r rest ih =>
    simp only [mapInsert]
    split
    · rename_i hrk
      rcases List.mem_cons.mp hq with rfl | h2
      · exact absurd hrk hne
      · exact List.mem_cons_of_mem _ h2
    · rcases List.mem_cons.mp hq with rfl | h2
      · exact List.mem_cons_self _ _
      · exact List.mem_cons_of_mem _ (ih h2)

theorem keysND_cons {r : String × List String} {rest : List (String × List String)}
    (hK : KeysND (r :: rest)) : r.1 ∉ rest.map Prod.fst ∧ KeysND rest := by
  simp only [KeysND, List.map_cons] at hK
  exact ⟨(List.nodup_cons.mp hK).1, (List.nodup_cons.mp hK).2⟩

theorem mapRemove_kills {k v : String} {d : List (String × List String)}
    (hK : KeysND d) (hkv : (k, [v]) ∈ d) :
    k ∉ (mapRemove k v d).map Prod.fst := by
  induction d with
  | nil => cases hkv
  | cons r rest ih =>
    rcases List.mem_cons.mp hkv with heq | hmem
    · rw [← heq] at hK ⊢
      have hres : mapRemove k v ((k, [v]) :: rest) = rest := by
        simp [mapRemove, List.erase_cons]
      rw [hres]
      exact (keysND_cons hK).1
    · by_cases hrk : r.1 = k
      · exfalso
        have hkrest : k ∈ rest.map Prod.fst := by
          simpa using List.mem_map_of_mem Prod.fst hmem
        exact (keysND_cons hK).1 (hrk ▸ hkrest)
      · simp only [mapRemove]
        rw [if_neg hrk]
        simp only [List.map_cons]
        intro hmem2
        rcases List.mem_cons.mp hmem2 with heq2 | hmem2
        · exact hrk heq2.symm
        · exact ih (keysND_cons hK).2 hmem hmem2

theorem removeKeys_kills {k v : String} {ks : List String}
    {d : List (String × List String)}
    (hK : KeysND d) (hkv : (k, [v]) ∈ d) (hks : k ∈ ks) :
    k ∉ (removeKeys v ks d).map Prod.fst := by
  induction ks generalizing d with
  | nil => cases hks
  | cons k' ks ih =>
    show k ∉ (removeKeys v ks (mapRemove k' v d)).map Prod.fst
    by_cases hk : k' = k
    · subst hk
      have hgone := mapRemove_kills hK hkv
      intro hmem
      exact hgone ((List.Sublist.subset (keys_removeKeys_sublist _ _ _)) hmem)
    · have hks' : k ∈ ks := by
        rcases List.mem_cons.mp hks with rfl | h
        · exact absurd rfl hk
        · exact h
      exact ih (keysND_mapRemove hK) (mem_mapRemove_ne hkv (fun h => hk h.symm)) hks'

theorem lookupKey_of_mem_nodup {k : String} {s : List String}
    {d : List (String × List String)} (hK : KeysND d) (hmem : (k, s) ∈ d) :
    lookupKey d k = some s := by
  induction d with
  | nil => cases hmem
  | cons r rest ih =>
    rcases List.mem_cons.mp hmem with heq | h2
    · rw [← heq]
      simp [lookupKey]
    · simp only [lookupKey]
      by_cases hrk : r.1 = k
      · exfalso
        have hkrest : k ∈ rest.map Prod.fst := by
          simpa using List.mem_map_of_mem Prod.fst h2
        exact (keysND_cons hK).1 (hrk ▸ hkrest)
      · rw [if_neg hrk]
        exact ih (keysND_cons hK).2 h2

theorem mem_insertKeys_hasEntry {k v : String} {s : List String} {ks : List String}
    {d : List (String × List String)}
    (hK : KeysND d) (hmem : (k, s) ∈ d) (hv : v ∈ s) :
    (k, s) ∈ insertKeys v ks d := by
  induction ks generalizing d with
  | nil => exact hmem
  | cons k' ks ih =>
    show (k, s) ∈ insertKeys v ks (mapInsert k' v d)
    by_cases hk : k' = k
    · subst hk
      rw [mapInsert_noop ⟨s, lookupKey_of_mem_nodup hK hmem, hv⟩]
      exact ih hK hmem
    · exact ih (keysND_mapInsert hK) (mem_mapInsert_ne hmem (fun h => hk h.symm))

theorem mapInsert_append_of_not_mem {k v : String} {d : List (String × List String)}
    (h : k ∉ d.map Prod.fst) : mapInsert k v d = d ++ [(k, [v])] := by
  induction d with
  | nil => rfl
  | cons r rest ih =>
    simp only [List.map_cons, List.mem_cons] at h
    push_neg at h
    simp only [mapInsert]
    rw [if_neg (fun hrk => h.1 hrk.symm)]
    rw [ih h.2]
    rfl

theorem insertKeys_creates {k v : String} {ks : List String}
    {d : List (String × List String)}
    (hK : KeysND d) (hnk : k ∉ d.map Prod.fst) (hks : k ∈ ks) :
    (k, [v]) ∈ insertKeys v ks d := by
  induction ks generalizing d with
  | nil => cases hks
  | cons k' ks ih =>
    show (k, [v]) ∈ insertKeys v ks (mapInsert k' v d)
    by_cases hk : k' = k
    · subst hk
      refine mem_insertKeys_hasEntry (keysND_mapInsert hK) ?_ (by simp)
      rw [mapInsert_append_of_not_mem hnk]
      exact List.mem_append.mpr (Or.inr (List.mem_cons_self _ _))
    · have hks' : k ∈ ks := by
        rcases List.mem_cons.mp hks with rfl | h
        · exact absurd rfl hk
        · exact h
      refine ih (keysND_mapInsert hK) ?_ hks'
      rw [keys_mapInsert]
      split
      · exact hnk
      · intro hmem
        rcases List.mem_append.mp hmem with h1 | h1
        · exact hnk h1
        · simp at h1
          exact hk h1.symm

theorem mem_mapInsert_origin {p : String × List String} {k v : String}
    {d : List (String × List String)} (h : p ∈ mapInsert k v d) :
    p ∈ d ∨ (∃ s, (p.1, s) ∈ d ∧ p.2 = hsInsert v s) ∨ p.2 = [v] := by
  induction d with
  | nil =>
    rcases List.mem_cons.mp h with rfl | h2
    · exact Or.inr (Or.inr rfl)
    · cases h2
  | cons r rest ih =>
    simp only [mapInsert] at h
    split at h
    · rename_i hrk
      rcases List.mem_cons.mp h with rfl | h2
      · refine Or.inr (Or.inl ⟨r.2, ?_, rfl⟩)
        have hpr : ((k, hsInsert v r.2).1, r.2) = r := by
          rw [← hrk]
        rw [hpr]
        exact List.mem_cons_self _ _
      · exact Or.inl (List.mem_cons_of_mem _ h2)
    · rcases List.mem_cons.mp h with rfl | h2
      · exact Or.inl (List.mem_cons_self _ _)
      · rcases ih h2 with h3 | ⟨s, hs, hps⟩ | h3
        · exact Or.inl (List.mem_cons_of_mem _ h3)
        · exact Or.inr (Or.inl ⟨s, List.mem_cons_of_mem _ hs, hps⟩)
        · exact Or.inr (Or.inr h3)

theorem mem_insertKeys_origin {p : String × List String} {v : String}
    {ks : List String} {d : List (String × List String)}
    (h : p ∈ insertKeys v ks d) :
    p ∈ d ∨ (∃ s, (p.1, s) ∈ d ∧ p.2 = hsInsert v s) ∨ p.2 = [v] := by
  induction ks generalizing d with
  | nil => exact Or.inl h
  | cons k ks ih =>
    rcases ih h with h1 | ⟨s, hs, hps⟩ | h1
    · exact mem_mapInsert_origin h1
    · rcases mem_mapInsert_origin hs with h2 | ⟨s', hs', hss'⟩ | h2
      · exact Or.inr (Or.inl ⟨s, h2, hps⟩)
      · refine Or.inr (Or.inl ⟨s', hs', ?_⟩)
        rw [hps]
        have hs2 : s = hsInsert v s' := hss'
        rw [hs2, hsInsert_idem]
      · refine Or.inr (Or.inr ?_)
        rw [hps]
        have hs2 : s = [v] := h2
        rw [hs2]
        exact hsInsert_of_mem (by simp)
    · exact Or.inr (Or.inr h1)

theorem eq_singleton_of_nodup {l : List String} {a : String}
    (hnd : l.Nodup) (h : ∀ x, x ∈ l ↔ x = a) : l = [a] := by
  cases l with
  | nil => exact absurd ((h a).mpr rfl) (by simp)
  | cons b t =>
    have hb : b = a := (h b).mp (List.mem_cons_self _ _)
    subst hb
    have ht : t = [] := by
      rw [List.eq_nil_iff_forall_not_mem]
      intro x hx
      have hxb : x = b := (h x).mp (List.mem_cons_of_mem _ hx)
      subst hxb
      exact (List.nodup_cons.mp hnd).1 hx
    rw [ht]

theorem query_eq_nil_of {idx : Index} {q : String}
    (h : ∀ p ∈ idx.data, strContains p.1 q = false) : idx.query q = [] := by
  rw [List.eq_nil_iff_forall_not_mem]
  intro x hx
  rcases Index.mem_query.mp hx with ⟨p, hp, hc, _⟩
  rw [h p hp] at hc
  cases hc

/-- Claim C3: a Rename(src, dst) event is processed as delete(src) followed by
insert(dst) inside the same uncommitted batch, with no commit in between, and
once the batch commits, a token unique to src matches nothing while a token
unique to dst matches exactly one document; the two committed states (before
and after the batch) never show both paths present or both absent. -/
theorem c3_rename_atomicity
    (idx : Index) (src dst ts td : String)
    (hWF : WFI idx)
    (hsrc : ∀ p ∈ idx.data, strContains p.1 ts = true →
      p.1 ∈ (itemOfPath src).keys ∧ p.2 = [src])
    (hex : ∃ p ∈ idx.data, strContains p.1 ts = true)
    (htd : ∀ p ∈ idx.data, strContains p.1 td = false)
    (hdd : ∃ k ∈ (itemOfPath dst).keys, strContains k td = true)
    (hds : ∀ k ∈ (itemOfPath dst).keys, strContains k ts = false) :
    (∀ oracle s, stepIter oracle s (RecvEvent.rename src dst) =
      Except.ok (bufferAdd (thresholdPhase oracle s) (renameOps src dst))) ∧
    idx.query ts = [src] ∧
    idx.query td = [] ∧
    ((Engine.mk idx (renameOps src dst)).commit).committed.query ts = [] ∧
    ((Engine.mk idx (renameOps src dst)).commit).committed.query td = [dst] := by
  have hqts : idx.query ts = [src] := by
    apply eq_singleton_of_nodup (Index.nodup_query _ _)
    intro x
    rw [Index.mem_query]
    constructor
    · rintro ⟨p, hp, hc, hx⟩
      rw [(hsrc p hp hc).2] at hx
      simpa using hx
    · rintro rfl
      obtain ⟨p, hp, hc⟩ := hex
      exact ⟨p, hp, hc, by rw [(hsrc p hp hc).2]; simp⟩
  have hqtd : idx.query td = [] := query_eq_nil_of htd
  have hqPostTs :
      ((idx.remove (itemOfPath src)).insert (itemOfPath dst)).query ts = [] := by
    apply query_eq_nil_of
    intro p hp
    cases hc : strContains p.1 ts with
    | false => rfl
    | true =>
      exfalso
      rcases mem_keys_insertKeys hp with hkR | hkD
      · have hkI : p.1 ∈ idx.data.map Prod.fst :=
          (List.Sublist.subset (keys_removeKeys_sublist _ _ _)) hkR
        obtain ⟨q, hq, hq1⟩ := exists_of_mem_keys hkI
        have hcq : strContains q.1 ts = true := by rw [hq1]; exact hc
        obtain ⟨hqk, hq2⟩ := hsrc q hq hcq
        have hkv : (p.1, [src]) ∈ idx.data := by
          rw [← hq1, ← hq2]
          exact hq
        have hkill := removeKeys_kills hWF.1 hkv (hq1 ▸ hqk)
        exact hkill hkR
      · have := hds p.1 hkD
        rw [this] at hc
        exact Bool.noConfusion hc
  have hqPostTd :
      ((idx.remove (itemOfPath src)).insert (itemOfPath dst)).query td = [dst] := by
    apply eq_singleton_of_nodup (Index.nodup_query _ _)
    intro x
    rw [Index.mem_query]
    have hnotoldtd : ∀ y : String × List String,
        y ∈ (idx.remove (itemOfPath src)).data → strContains y.1 td = false := by
      intro y hy
      have hkI : y.1 ∈ idx.data.map Prod.fst :=
        (List.Sublist.subset (keys_removeKeys_sublist _ _ _)) (mem_keys_of_mem hy)
      obtain ⟨q, hq, hq1⟩ := exists_of_mem_keys hkI
      have := htd q hq
      rw [hq1] at this
      exact this
    constructor
    · rintro ⟨p, hp, hc, hx⟩
      rcases mem_insertKeys_origin hp with hpR | ⟨s, hmem, hps⟩ | hp2
      · rw [hnotoldtd p hpR] at hc
        exact Bool.noConfusion hc
      · have : strContains (p.1, s).1 td = false := hnotoldtd (p.1, s) hmem
        rw [this] at hc
        exact Bool.noConfusion hc
      · rw [hp2] at hx
        simpa using hx
    · intro hx
      obtain ⟨k0, hk0, hck0⟩ := hdd
      have hk0notR : k0 ∉ (idx.remove (itemOfPath src)).data.map Prod.fst := by
        intro hmem
        obtain ⟨q, hq, hq1⟩ := exists_of_mem_keys hmem
        have := hnotoldtd q hq
        rw [hq1, hck0] at this
        exact Bool.noConfusion this
      have hKR : KeysND (idx.remove (itemOfPath src)).data := (wfi_remove hWF _).1
      have hcreate : ((k0, [dst]) : String × List String) ∈
          ((idx.remove (itemOfPath src)).insert (itemOfPath dst)).data :=
        insertKeys_creates hKR hk0notR hk0
      exact ⟨(k0, [dst]), hcreate, hck0, by rw [hx]; simp⟩
  exact ⟨fun _ _ => rfl, hqts, hqtd, hqPostTs, hqPostTd⟩

/-! ### The query service (src/lookr-daemon/src/rpc.rs) -/

/-- Embedding of the QueryReq message: a query string plus pagination hints. -/
structure QueryReq where
  query : String
  count : Int
  offset : Int
  deriving DecidableEq

/-- Modelled from the spec: the external searcher returns the documents
matching the parsed query, and the TopDocs collector keeps at most `limit` of
them in score order.  The searcher is external to the repository; the fixed
limit and the unread pagination hints below are the repository's code. -/
def topDocsSearch (matching : List String) (limit : Nat) : List String :=
  matching.take limit

/-- Embedding of `LookrService::query`: search with `TopDocs::with_limit(1000)`
and push the stored path of every hit; `count` and `offset` are never read. -/
def lookrServiceQuery (searcher : String → List String) (req : QueryReq) : List String :=
  topDocsSearch (searcher req.query) 1000

/-- A family of pairwise distinct paths. -/
def c8Path (n : Nat) : String := String.mk (List.replicate n 'a')

/-- 1001 distinct paths, all matching the counterexample query. -/
def c8Paths : List String := (List.range 1001).map c8Path

theorem c8Path_inj : Function.Injective c8Path := by
  intro a b h
  have h2 : List.replicate a 'a' = List.replicate b 'a' := congrArg String.data h
  have h3 := congrArg List.length h2
  simpa using h3

/-- Claim C8 counterexample: with 1001 distinct matching paths, the response
omits one of them (it holds only 1000), so the service does not return the
full deduplicated match set. -/
theorem c8_counterexample :
    c8Path 1000 ∈ c8Paths ∧
    c8Path 1000 ∉ lookrServiceQuery (fun _ => c8Paths) ⟨"q", 0, 0⟩ ∧
    (lookrServiceQuery (fun _ => c8Paths) ⟨"q", 0, 0⟩).length = 1000 ∧
    c8Paths.Nodup := by
  have hq : lookrServiceQuery (fun _ => c8Paths) ⟨"q", 0, 0⟩ =
      (List.range 1000).map c8Path := by
    show ((List.range 1001).map c8Path).take 1000 = _
    rw [← List.map_take]
    congr 1
  refine ⟨?_, ?_, ?_, ?_⟩
  · exact List.mem_map.mpr ⟨1000, by simp, rfl⟩
  · rw [hq]
    intro hmem
    rcases List.mem_map.mp hmem with ⟨k, hk, hck⟩
    have hk1000 := c8Path_inj hck
    rw [hk1000] at hk
    simp at hk
  · rw [hq]
    simp
  · exact List.Nodup.map c8Path_inj (List.nodup_range _)

/-- Claim C8 amended: for every query string, the response is the matched paths
truncated to the first 1000 in searcher order (a sublist of the match set, of
length min(matches, 1000), without further deduplication), and the count and
offset hints have no effect on the response. -/
theorem c8_amended_truncated_to_1000 (searcher : String → List String) (req : QueryReq) :
    lookrServiceQuery searcher req = (searcher req.query).take 1000 ∧
    (lookrServiceQuery searcher req).length = min (searcher req.query).length 1000 ∧
    List.Sublist (lookrServiceQuery searcher req) (searcher req.query) ∧
    (∀ c o, lookrServiceQuery searcher ⟨req.query, c, o⟩ = lookrServiceQuery searcher req) := by
  refine ⟨rfl, ?_, List.take_sublist _ _, fun c o => rfl⟩
  simp [lookrServiceQuery, topDocsSearch, Nat.min_comm]

/-! ### Witnesses: each theorem with hypotheses applied at a concrete input -/

theorem c1_witness :
    (runLoop okOracle [RecvEvent.create "/a", RecvEvent.timeout]
      (initPipe Index.empty)).isOk = true :=
  (c1_amended_only_disconnect_fatal okOracle
    [RecvEvent.create "/a", RecvEvent.timeout] (initPipe Index.empty)).mpr (by simp)

theorem c3_witness :
    ((Engine.mk (Index.empty.insert (itemOfPath "/r/srcuniq"))
        (renameOps "/r/srcuniq" "/r/dstuniq")).commit).committed.query "srcuniq" = [] ∧
    ((Engine.mk (Index.empty.insert (itemOfPath "/r/srcuniq"))
        (renameOps "/r/srcuniq" "/r/dstuniq")).commit).committed.query "dstuniq" =
      ["/r/dstuniq"] :=
  ⟨(c3_rename_atomicity (Index.empty.insert (itemOfPath "/r/srcuniq"))
      "/r/srcuniq" "/r/dstuniq" "srcuniq" "dstuniq" (by decide) (by decide) (by decide)
      (by decide) (by decide) (by decide)).2.2.2.1,
   (c3_rename_atomicity (Index.empty.insert (itemOfPath "/r/srcuniq"))
      "/r/srcuniq" "/r/dstuniq" "srcuniq" "dstuniq" (by decide) (by decide) (by decide)
      (by decide) (by decide) (by decide)).2.2.2.2⟩

theorem c5_witness :
    ((Index.empty.insert (itemOfPath "/foo/bar")).insert (itemOfPath "/foo/bar") =
      Index.empty.insert (itemOfPath "/foo/bar")) ∧
    (((Index.empty.insert (itemOfPath "/foo/bar")).insert
        (itemOfPath "/foo/bar")).query "foo").count "/foo/bar" = 1 :=
  ⟨(c5_insert_idempotent Index.empty (itemOfPath "/foo/bar")).1,
   (c5_insert_idempotent Index.empty (itemOfPath "/foo/bar")).2 "foo" (by decide)⟩

/-- A small well-formed index for the C6 witness. -/
def c6Idx : Index := ⟨[("a", ["/a/x"])]⟩

theorem c6_witness :
    ((c6Idx.insert (itemOfPath "/a/y")).remove (itemOfPath "/a/y") = c6Idx) ∧
    ((Index.empty.insert (itemOfPath "/a/y")).remove (itemOfPath "/a/y")).query "y" = [] :=
  ⟨(c6_insert_remove_restores (itemOfPath "/a/y") c6Idx (by decide) (by decide)).1,
   (c6_insert_remove_restores (itemOfPath "/a/y") c6Idx (by decide) (by decide)).2 "y"⟩

theorem c7_witness :
    (validateRoots [⟨"/missing", false, false⟩]).isOk = false ∧
    ∃ e, indexerRun okOracle [⟨"/missing", false, false⟩] [] [] =
      Except.error (IndexerError.watcher e) :=
  ⟨by decide,
   (c7_roots_validated_before_watching [⟨"/missing", false, false⟩]).2 (by decide)
     okOracle [] []⟩

theorem c8_witness :
    lookrServiceQuery (fun _ => ["/a"]) ⟨"x", 5, 7⟩ = ["/a"].take 1000 :=
  (c8_amended_truncated_to_1000 (fun _ => ["/a"]) ⟨"x", 5, 7⟩).1

theorem c9_witness :
    ((applyIdxOps [IdxOp.ins (itemOfPath "/a/b"), IdxOp.rem (itemOfPath "/a/b")]
      Index.empty).data.all (fun p => !p.2.isEmpty)) = true :=
  c9_no_empty_entries [IdxOp.ins (itemOfPath "/a/b"), IdxOp.rem (itemOfPath "/a/b")]

theorem c10_witness :
    ((Index.empty.insert (itemOfPath "/a/b")).query "").Nodup ∧
    ("/a/b" ∈ (Index.empty.insert (itemOfPath "/a/b")).query "" ↔
      ∃ p ∈ (Index.empty.insert (itemOfPath "/a/b")).data, "/a/b" ∈ p.2) :=
  ⟨(c10_empty_query (Index.empty.insert (itemOfPath "/a/b"))).1,
   (c10_empty_query (Index.empty.insert (itemOfPath "/a/b"))).2 "/a/b"⟩

end Lookr
